import Mathlib

/-!
# Verification of the homeserver-spec-versions data-transformation layer

Shallow embedding of the data-transformation code of the repository
(`src/index.js`, `src/unnamed/part_000`, `src/unnamed/part_002`) and proofs
about it.  JavaScript strings are viewed through their character lists
(`String.data`); dates are modelled at day granularity as integers
(the scripts only ever construct `Date` values from ISO date strings and
compare or subtract them); JavaScript objects are modelled as association
lists in insertion order (`Object.keys`/`Object.entries` enumerate keys in
insertion order, and keys are unique).
-/

/-! ## VersionOrdering: `cmpVersions` (src/index.js lines 17-39)

```js
function cmpVersions(a, b) {
    // Build an array of the first character, then the partial version numbers.
    let A = [a[0]];
    A.push( ...a.split(".").map(Number));
    let B = [b[0]];
    B.push( ...b.split(".").map(Number));
    for (let i = 0; i < a.length; ++i) {
        // If B[i] is undefined, A must be earlier.
        if (B[i] === undefined) { return -1 }
        // Otherwise compare the individual items.
        if (A[i] < B[i]) { return -1; } else if (A[i] > B[i]) { return 1; }
    }
}
```

The arrays `A`, `B` are heterogeneous: slot 0 holds a one-character string
(or `undefined` for the empty string), the remaining slots hold JavaScript
numbers (`Number(component)`, which is `NaN` for components such as `"r0"`
or `"v1"`).  Reading past the end of the array yields `undefined`.  The
function can also fall off the end of the loop, returning `undefined`,
which we model as `none`. -/

/-- A JavaScript number as produced by `Number(component)` on the component
strings that occur here: an integer, or `NaN` for non-numeric components. -/
inductive JSNum where
  | nan : JSNum
  | int : Int → JSNum
deriving DecidableEq, Repr

/-- A slot of the heterogeneous array `A` built by `cmpVersions`: the
one-character string `a[0]`, a number from `a.split(".").map(Number)`, or
`undefined` when indexing past the end. -/
inductive JSVal where
  | char : Char → JSVal
  | num : JSNum → JSVal
  | jsUndefined : JSVal
deriving DecidableEq, Repr

/-- Value of a nonempty all-digit character list. -/
def digitsVal (s : List Char) : Int :=
  s.foldl (fun acc c => 10 * acc + (c.toNat - '0'.toNat : Int)) 0

/-- `Number(s)` for the component strings arising from version strings over
digits, dots and letters: the empty string is `0`, a digit string is its
value, anything containing a non-digit is `NaN`. -/
def jsNumber (s : List Char) : JSNum :=
  if s = [] then .int 0
  else if s.all Char.isDigit then .int (digitsVal s)
  else .nan

/-- `a.split(".")` on the character list of `a` (splitting on `'.'`,
keeping empty pieces, as `String.prototype.split` does). -/
def splitDots : List Char → List (List Char)
  | [] => [[]]
  | c :: rest =>
    if c = '.' then [] :: splitDots rest
    else match splitDots rest with
      | [] => [[c]]
      | piece :: pieces => (c :: piece) :: pieces

/-- The array `A = [a[0], ...a.split(".").map(Number)]`. -/
def buildArr (a : List Char) : List JSVal :=
  (match a with
   | [] => JSVal.jsUndefined
   | c :: _ => JSVal.char c)
  :: (splitDots a).map (fun s => JSVal.num (jsNumber s))

/-- `arr[i]` with JavaScript out-of-bounds semantics. -/
def getJS (l : List JSVal) (i : Nat) : JSVal :=
  (l.get? i).getD .jsUndefined

/-- JavaScript `<` on the values that get compared here: two one-character
strings compare by code unit, two numbers compare as numbers (`false`
whenever one is `NaN`), and any comparison against `undefined` is `false`
(`undefined` converts to `NaN`).  Slot `i` of `A` is compared only against
slot `i` of `B`, so a string never meets a number. -/
def jsLt : JSVal → JSVal → Bool
  | .char c, .char d => c < d
  | .num (.int x), .num (.int y) => x < y
  | _, _ => false

/-- The loop of `cmpVersions`, from index `i` with `fuel` iterations left
(`fuel` is instantiated with `a.length`, the total number of iterations).
`none` models the JavaScript `undefined` returned when the loop ends. -/
def cmpFrom (A B : List JSVal) : Nat → Nat → Option Int
  | _, 0 => none
  | i, fuel + 1 =>
    if getJS B i = .jsUndefined then some (-1)
    else if jsLt (getJS A i) (getJS B i) then some (-1)
    else if jsLt (getJS B i) (getJS A i) then some 1
    else cmpFrom A B (i + 1) fuel

/-- `cmpVersions(a, b)` from src/index.js lines 17-39 (identical copy at
src/unnamed/part_002 lines 47-69). -/
def cmpVersions (a b : String) : Option Int :=
  cmpFrom (buildArr a.data) (buildArr b.data) 0 a.data.length

/-- The spec-version catalog used as fixture: the released Matrix spec
versions, the keys of `data.spec_versions.version_dates`. -/
def specCatalog : List String :=
  ["r0.0.0", "r0.0.1", "r0.1.0", "r0.2.0", "r0.5.0", "r0.6.0", "r0.6.1",
   "v1.1", "v1.2", "v1.3", "v1.9", "v1.10", "v1.11"]

/-- A fixture catalog of dot-separated numeric version strings, for the
behaviour of `cmpVersions` on purely numeric versions. -/
def numericFixture : List String :=
  ["0", "1", "5", "9", "10", "12", "1.0", "1.1", "1.2", "1.9", "1.10",
   "1.11", "2.0", "9.1", "10.1", "1.1.1", "1.10.2"]

/-- The integer component vector of a dot-separated numeric version string. -/
def intComps (a : String) : List Int :=
  (splitDots a.data).map digitsVal

/-- Index and values of the first position where two integer component
vectors differ (`none` when one is a prefix of the other). -/
def firstDiff : List Int → List Int → Option (Nat × Int × Int)
  | x :: xs, y :: ys =>
    if x = y then (firstDiff xs ys).map (fun t => (t.1 + 1, t.2)) else some (0, x, y)
  | _, _ => none

/-- Checker for the slot-wise behaviour of `cmpVersions` on numeric version
strings: when the first characters differ, the result is decided by the
character comparison; when they agree and the component vectors first differ
at component `k` with slot `k + 1` inside the loop bound `a.length`, the
result is the sign of the integer comparison at component `k`. -/
def cmpSlotBehavior (a b : String) : Bool :=
  match a.data.head?, b.data.head? with
  | some ca, some cb =>
    if ca ≠ cb then cmpVersions a b == some (if ca < cb then -1 else 1)
    else
      match firstDiff (intComps a) (intComps b) with
      | some (k, x, y) =>
        if k + 2 ≤ a.data.length then
          cmpVersions a b == some (if x < y then -1 else 1)
        else true
      | none => true
  | _, _ => true

/-! ## LagAggregator output: scatter datasets (src/index.js lines 239-264)

```js
scatterDatasets.push({
    label: project,
    data: Object.keys(projectVersions).map(v => {
        return { label: v, x: data.spec_versions.lag[v], y: projectVersions[v] };
    }),
    borderWidth: 1,
})
```

`projectVersions` is `data.homeserver_versions[project]["lag_" + displayType]`,
the per-version lag map of one project under the selected inclusion policy,
modelled as an association list (JavaScript object, unique keys, insertion
order).  `data.spec_versions.lag[v]` may be `undefined`, hence `Option`. -/

/-- One scatter point: `(label, x, y)` where `x = specLag[v]` (possibly
`undefined`) and `y = projectVersions[v]`. -/
def scatterData (specLag projectLag : List (String × Int)) :
    List (String × Option Int × Option Int) :=
  (projectLag.map Prod.fst).map
    (fun v => (v, specLag.lookup v, projectLag.lookup v))

/-! ## IntervalFlattener (src/index.js lines 295-312 and 337-355)

```js
data: Object.keys(projectVersions).map(
    verString => projectVersions[verString].map(
        verDates => { return { x: [verDates[0], verDates[1] || now], y: verString }; }
    )
).flat(),
```

An interval is `[start, end?]`; `verDates[1] || now` substitutes `now`
whenever the end is absent (`undefined`) or the empty string (both falsy). -/

/-- `verDates[1] || now`. -/
def orNow (e : Option String) (now : String) : String :=
  match e with
  | none => now
  | some s => if s = "" then now else s

/-- The flattening of a version-dates mapping into tuples
`(version, start, end)`, in map order then interval order. -/
def flattenVersionDates (pv : List (String × List (String × Option String)))
    (now : String) : List (String × String × String) :=
  (pv.map (fun p => p.2.map (fun iv => (p.1, iv.1, orNow iv.2 now)))).flatten

/-! ## Project records

Fields of `data.homeserver_versions[name]` used by the family-tree and
activity code; dates at day granularity. -/

structure ProjectInfo where
  initial_commit_date : Int
  last_commit_date : Int
  forked_from : Option String
  forked_date : Int
deriving DecidableEq, Repr

/-- The maturity-filtered `data.homeserver_versions` object: association
list in insertion order. -/
abbrev ProjMap := List (String × ProjectInfo)

/-- `data.homeserver_versions[k]` (`undefined` when absent). -/
def lookupJS (m : ProjMap) (k : String) : Option ProjectInfo :=
  List.lookup k m

/-! ## FamilyTreeBuilder (src/unnamed/part_000 lines 85-143)

The sort comparator walks `forked_from` pointers to the root:

```js
let a_parent = a;
let a_family = a_name;
while (a_parent.forked_from) {
    a_family = a_parent.forked_from;
    a_parent = data.homeserver_versions[a_family];
}
```

The `while` loop is unbounded; we model it with explicit fuel, `none`
meaning the fuel ran out (the JavaScript loop would still be running).
When `a_parent` becomes `undefined` (dangling `forked_from`), evaluating
the loop condition `a_parent.forked_from` throws a `TypeError`, modelled as
`some (.error ())`. -/

def forkWalk (m : ProjMap) : String → ProjectInfo → Nat →
    Option (Except Unit (String × ProjectInfo))
  | fam, p, fuel =>
    match p.forked_from with
    | none => some (.ok (fam, p))
    | some f =>
      match fuel with
      | 0 => none
      | fuel + 1 =>
        match lookupJS m f with
        | none => some (.error ())
        | some q => forkWalk m f q fuel

/-- The comparator of `projectsByFamily`:

```js
let a_date = a.initial_commit_date;
let b_date = b.initial_commit_date;
// ... walk both to the root ...
if (a_family !== b_family) {
    a_date = a_parent.initial_commit_date;
    b_date = b_parent.initial_commit_date;
}
return new Date(a_date) - new Date(b_date);
```

The walk of `a` runs first, so a `TypeError` there surfaces first.  Fuel
`m.length` covers every acyclic chain; exhausted fuel (a cycle longer than
the walk can finish, where the JavaScript never returns) is also mapped to
`.error` but never arises under the hypotheses used below. -/
def famCmpE (m : ProjMap) (a b : String × ProjectInfo) : Except Unit Int :=
  match forkWalk m a.1 a.2 m.length, forkWalk m b.1 b.2 m.length with
  | some (Except.error _), _ => .error ()
  | _, some (Except.error _) => .error ()
  | some (Except.ok (fa, pa)), some (Except.ok (fb, pb)) =>
    if fa ≠ fb then .ok (pa.initial_commit_date - pb.initial_commit_date)
    else .ok (a.2.initial_commit_date - b.2.initial_commit_date)
  | _, _ => .error ()

/-- `Array.prototype.sort` inserts one element into an already handled
list, asking the comparator and propagating an exception it throws. -/
def insertCmp (cmp : α → α → Except ε Int) (x : α) : List α → Except ε (List α)
  | [] => .ok [x]
  | y :: ys => do
    let c ← cmp x y
    if c ≤ 0 then pure (x :: y :: ys)
    else (y :: ·) <$> insertCmp cmp x ys

/-- Stable comparison sort with an exception-throwing comparator, the model
of `Array.prototype.sort(comparator)`: for a consistent comparator it
produces the stable sorted order; a comparator exception aborts the sort. -/
def sortCmp (cmp : α → α → Except ε Int) : List α → Except ε (List α)
  | [] => .ok []
  | x :: xs => do
    let t ← sortCmp cmp xs
    insertCmp cmp x t

/-- `projectsByFamily = Object.entries(data.homeserver_versions).sort(...)`
(the row order of the family-tree timeline). -/
def projectsByFamily (m : ProjMap) : ProjMap :=
  match sortCmp (famCmpE m) m with
  | .ok s => s
  | .error _ => []

/-- The family-tree datasets (src/unnamed/part_000 lines 115-143): for each
project, row `idx`, the points `(initial_commit_date, idx)` and
`(last_commit_date, idx)`, preceded for forks by the connector point
`(forked_date, findIndex(parent))` where `findIndex` yields `-1` when the
parent is not in the sorted list. -/
def homeserverHistory (m : ProjMap) :
    Except Unit (List (String × List (Int × Int))) :=
  (sortCmp (famCmpE m) m).map (fun s =>
    s.enum.map (fun ie =>
      let idx : Int := ie.1
      let info := ie.2.2
      let base : List (Int × Int) :=
        [(info.initial_commit_date, idx), (info.last_commit_date, idx)]
      let pts :=
        match info.forked_from with
        | some f =>
          (info.forked_date,
           match s.findIdx? (fun p => p.1 == f) with
           | some i => (i : Int)
           | none => -1) :: base
        | none => base
      (ie.2.1, pts)))

/-- Root walk of one entry with fuel `m.length` (enough for every chain in
a forest of `m.length` projects). -/
def famOf (m : ProjMap) (e : String × ProjectInfo) :
    Option (Except Unit (String × ProjectInfo)) :=
  forkWalk m e.1 e.2 m.length

/-- The family key (name of the ultimate root ancestor, `a_family`). -/
def famName (m : ProjMap) (e : String × ProjectInfo) : String :=
  match famOf m e with
  | some (Except.ok r) => r.1
  | _ => e.1

/-- The root ancestor's record (`a_parent` after the walk). -/
def rootInfoOf (m : ProjMap) (e : String × ProjectInfo) : ProjectInfo :=
  match famOf m e with
  | some (Except.ok r) => r.2
  | _ => e.2

/-- The root ancestor's `initial_commit_date` (the family key date). -/
def rootDate (m : ProjMap) (e : String × ProjectInfo) : Int :=
  (rootInfoOf m e).initial_commit_date

/-- The bounded root walk of `e` succeeds (no dangling reference, no cycle). -/
def famOk (m : ProjMap) (e : String × ProjectInfo) : Bool :=
  match famOf m e with
  | some (Except.ok _) => true
  | _ => false

/-- `m` is a forest with every `forked_from` reference present: the bounded
root walk of every entry succeeds. -/
def Forest (m : ProjMap) : Prop :=
  ∀ e ∈ m, famOk m e = true

instance (m : ProjMap) : Decidable (Forest m) :=
  inferInstanceAs (Decidable (∀ e ∈ m, famOk m e = true))

/-! ## ActivitySweepCounter (src/unnamed/part_000 lines 341-381)

```js
let dates = Object.values(data.homeserver_versions).map(project =>
    [[new Date(project.initial_commit_date), 1], [new Date(project.last_commit_date), -1]]
).flat().sort((a, b) => a[0] > b[0]);

const last_run = dates[dates.length - 1][0];
last_run.setHours(0, 0, 0, 0);
last_run.setDate(last_run.getDate() - 60);
dates = dates.filter(a => a[0] < last_run || a[1] > 0);

let total_count = 0;
let active_count = 0;
let total = dates.map(a => {
    if (a[1] > 0) { return [a[0], total_count += 1] }
    return null
}).filter(a => a !== null);
let active = dates.map(a => [a[0], active_count += a[1]]);
```

The boolean comparator `a[0] > b[0]` coerces to `{0, 1}`; a list is sorted
with respect to it exactly when it is ascending by date, and on small
inputs the engine's insertion sort with this comparator produces the stable
ascending order, which is how we model the sort.  `last_run` aliases the
`Date` object of the final (maximum-date) event, so `setDate(-60)` rewrites
that event's date in place; at day granularity `setHours(0,0,0,0)` is the
identity (the dates come from ISO date strings).  The comparison
`a[0] < last_run` for the aliased final element compares the object with
itself, which is false. -/

/-- The event list: `(date, +1)` per `initial_commit_date`, `(date, -1)`
per `last_commit_date`, in map order. -/
def activityEvents (m : ProjMap) : List (Int × Int) :=
  (m.map (fun p =>
    [(p.2.initial_commit_date, (1 : Int)), (p.2.last_commit_date, (-1 : Int))])).flatten

/-- The event list after `.sort((a, b) => a[0] > b[0])`: stable ascending
by date. -/
def sortedEvents (m : ProjMap) : List (Int × Int) :=
  List.insertionSort (fun a b => a.1 ≤ b.1) (activityEvents m)

/-- `dates[dates.length - 1]` (`none` for an empty map, where the script
would throw before producing any series). -/
def lastEvent (m : ProjMap) : Option (Int × Int) :=
  (sortedEvents m).getLast?

/-- The trailing-inactivity cutoff: the final event's date minus 60 days. -/
def cutoffOf (m : ProjMap) : Int :=
  (match lastEvent m with
   | some e => e.1
   | none => 0) - 60

/-- The event list after the in-place `setDate` mutation: the final
event's date has become the cutoff. -/
def mutatedEvents (m : ProjMap) : List (Int × Int) :=
  match lastEvent m with
  | none => sortedEvents m
  | some e => (sortedEvents m).dropLast ++ [(cutoffOf m, e.2)]

/-- The events surviving `dates.filter(a => a[0] < last_run || a[1] > 0)`. -/
def keptEvents (m : ProjMap) : List (Int × Int) :=
  (mutatedEvents m).filter
    (fun e => decide (e.1 < cutoffOf m) || decide (0 < e.2))

/-- The `total` accumulation: one point `(date, ++total_count)` per start
event, end events contribute nothing. -/
def totalGo : List (Int × Int) → Int → List (Int × Int)
  | [], _ => []
  | e :: rest, c =>
    if 0 < e.2 then (e.1, c + 1) :: totalGo rest (c + 1) else totalGo rest c

/-- The `active` accumulation: one point `(date, active_count += delta)`
per event. -/
def activeGo : List (Int × Int) → Int → List (Int × Int)
  | [], _ => []
  | e :: rest, c => (e.1, c + e.2) :: activeGo rest (c + e.2)

/-- The emitted `total` series. -/
def totalSeries (m : ProjMap) : List (Int × Int) :=
  totalGo (keptEvents m) 0

/-- The emitted `active` series. -/
def activeSeries (m : ProjMap) : List (Int × Int) :=
  activeGo (keptEvents m) 0

/-- The comparator's numeric value (`0` as junk on the error cases, which
never arise once every root walk succeeds). -/
def cmpVal (m : ProjMap) (a b : String × ProjectInfo) : Int :=
  match famCmpE m a b with
  | .ok c => c
  | .error _ => 0

/-- `comparator(a, b) <= 0`: `a` stays before `b` in the stable sort. -/
def famLe (m : ProjMap) (a b : String × ProjectInfo) : Prop :=
  cmpVal m a b ≤ 0

instance (m : ProjMap) : DecidableRel (famLe m) := fun a b =>
  inferInstanceAs (Decidable (cmpVal m a b ≤ 0))

/-- Lexicographic order on `(root initial_commit_date, own
initial_commit_date)`, the order the comparator implements on a forest
whose distinct families have distinct root dates. -/
def keyLe (m : ProjMap) (a b : String × ProjectInfo) : Prop :=
  rootDate m a < rootDate m b
  ∨ (rootDate m a = rootDate m b
     ∧ a.2.initial_commit_date ≤ b.2.initial_commit_date)

instance (m : ProjMap) : DecidableRel (keyLe m) := fun x y =>
  inferInstanceAs (Decidable (rootDate m x < rootDate m y
    ∨ (rootDate m x = rootDate m y
       ∧ x.2.initial_commit_date ≤ y.2.initial_commit_date)))

/-- Lexicographic strict order on character lists (the order of
JavaScript string comparison for ASCII names). -/
def charListLt : List Char → List Char → Bool
  | [], [] => false
  | [], _ :: _ => true
  | _ :: _, [] => false
  | c :: cs, d :: ds => if c < d then true else if d < c then false else charListLt cs ds

/-- Name order used for the claimed tie-break: `a` not after `b`. -/
def nameLe (a b : String) : Prop := charListLt b.data a.data = false

instance (a b : String) : Decidable (nameLe a b) :=
  inferInstanceAs (Decidable (_ = false))

/-- The row ordering claimed by the spec for FamilyTreeBuilder: ascending
by root `initial_commit_date`, then own `initial_commit_date`, with ties
broken by name.  Stated from the spec's words, to be compared with what
`projectsByFamily` produces. -/
def specRowOrderLe (m : ProjMap) (a b : String × ProjectInfo) : Prop :=
  rootDate m a < rootDate m b
  ∨ (rootDate m a = rootDate m b
     ∧ (a.2.initial_commit_date < b.2.initial_commit_date
        ∨ (a.2.initial_commit_date = b.2.initial_commit_date
           ∧ nameLe a.1 b.1)))

instance (m : ProjMap) : DecidableRel (specRowOrderLe m) := fun x y =>
  inferInstanceAs (Decidable (rootDate m x < rootDate m y
    ∨ (rootDate m x = rootDate m y
       ∧ (x.2.initial_commit_date < y.2.initial_commit_date
          ∨ (x.2.initial_commit_date = y.2.initial_commit_date
             ∧ nameLe x.1 y.1)))))

/-! # Helper lemmas -/

theorem lookup_eq_some_of_mem {α β : Type} [BEq α] [LawfulBEq α]
    {l : List (α × β)} {a : α} {b : β}
    (hnd : (l.map Prod.fst).Nodup) (h : (a, b) ∈ l) :
    l.lookup a = some b := by
  induction l with
  | nil => cases h
  | cons x t ih =>
    rcases List.mem_cons.mp h with h | h
    · subst h
      simp [List.lookup]
    · have hx : ¬ (a == x.1) = true := by
        intro hax
        have : a = x.1 := eq_of_beq hax
        subst this
        exact (List.nodup_cons.mp hnd).1 (List.mem_map.mpr ⟨(x.1, b), h, rfl⟩)
      simp only [List.lookup, hx]
      exact ih (List.nodup_cons.mp hnd).2 h

theorem lookup_mem {α β : Type} [BEq α] [LawfulBEq α]
    {l : List (α × β)} {a : α} {b : β} (h : l.lookup a = some b) :
    (a, b) ∈ l := by
  induction l with
  | nil => simp [List.lookup] at h
  | cons x t ih =>
    by_cases hax : (a == x.1) = true
    · simp only [List.lookup, hax] at h
      have : a = x.1 := eq_of_beq hax
      cases x
      cases h
      simp_all
    · simp only [List.lookup, hax] at h
      exact List.mem_cons_of_mem _ (ih h)

theorem lookup_isSome_of_key_mem {α β : Type} [BEq α] [LawfulBEq α]
    {l : List (α × β)} {a : α} (h : a ∈ l.map Prod.fst) :
    ∃ b, l.lookup a = some b := by
  induction l with
  | nil => cases h
  | cons x t ih =>
    by_cases hax : (a == x.1) = true
    · exact ⟨x.2, by simp [List.lookup, hax]⟩
    · simp only [List.map_cons, List.mem_cons] at h
      rcases h with h | h
      · exact absurd (beq_iff_eq.mpr h) hax
      · obtain ⟨b, hb⟩ := ih h
        exact ⟨b, by simp [List.lookup, hax, hb]⟩

/-! # Claim C1 -/

/-- C1, counterexample: `cmpVersions` does not return `0` on a pair of
equal catalog versions; `cmpVersions("v1.10", "v1.10")` is `-1` (the
`B[i] === undefined` branch fires at slot 4, inside the loop bound
`"v1.10".length = 5`), so the comparator is not antisymmetric either
(both orientations of the pair return `-1`). -/
theorem cmpVersions_not_reflexive_equal :
    "v1.10" ∈ specCatalog ∧ cmpVersions "v1.10" "v1.10" = some (-1) := by
  decide

set_option maxHeartbeats 4000000 in
/-- C1 (amended): on every pair of *distinct* versions of the catalog,
`cmpVersions` returns `-1` or `1`, is antisymmetric and transitive — a
strict total order on the distinct catalog keys, usable as a sort
comparator for them — but on every equal pair it returns `-1`, never `0`. -/
theorem cmpVersions_catalog_strict_order :
    (∀ a ∈ specCatalog, ∀ b ∈ specCatalog, a ≠ b →
      (cmpVersions a b = some (-1) ∨ cmpVersions a b = some 1))
    ∧ (∀ a ∈ specCatalog, ∀ b ∈ specCatalog, a ≠ b →
      (cmpVersions a b = some (-1) ↔ cmpVersions b a = some 1))
    ∧ (∀ a ∈ specCatalog, ∀ b ∈ specCatalog, ∀ c ∈ specCatalog,
      cmpVersions a b = some (-1) → cmpVersions b c = some (-1) →
      cmpVersions a c = some (-1))
    ∧ (∀ a ∈ specCatalog, cmpVersions a a = some (-1)) := by
  decide

/-- Witness for `cmpVersions_catalog_strict_order` at concrete catalog
versions. -/
theorem cmpVersions_catalog_strict_order_witness :
    cmpVersions "r0.0.0" "v1.1" = some (-1) :=
  cmpVersions_catalog_strict_order.2.2.1 "r0.0.0" (by decide) "r0.1.0"
    (by decide) "v1.1" (by decide) (by decide) (by decide)

/-! # Claim C2 -/

/-- C2, counterexample: on dot-separated numeric version strings the
claimed rules fail.  With `a = "1.1"` a proper component-prefix of
`b = "1.1.1"`, the claim says the shorter sorts earlier
(`cmpVersions a b = -1`); the code instead returns `undefined` for the
shorter-first orientation and `-1` for the longer-first one, so the longer
sorts earlier.  Equal vectors (`"1.10"` vs `"1.10"`) yield `-1`, not `0`.
And `"9"` vs `"10"` is decided by the prepended first *characters*
(`'9' > '1'`), returning `1` although `9 < 10` as integers. -/
theorem cmpVersions_numeric_counterexample :
    cmpVersions "1.1" "1.1.1" = none
    ∧ cmpVersions "1.1.1" "1.1" = some (-1)
    ∧ cmpVersions "1.10" "1.10" = some (-1)
    ∧ cmpVersions "9" "10" = some 1 := by
  decide

set_option maxHeartbeats 4000000 in
/-- C2 (amended): on the numeric fixture, `cmpVersions` compares slot-wise
— the first characters lexicographically, then the dot-separated components
as integers, visiting at most `a.length` slots.  An equal pair yields `-1`
(slots exhaust before `a.length`) or `undefined`, never `0`; when `b`'s
component vector is a proper prefix of `a`'s, the longer `a` sorts earlier
(`cmpVersions a b = -1`, `cmpVersions b a = undefined`); otherwise the
first differing slot within the loop bound decides, with the first
*character* comparison overriding the numeric order of the first
components. -/
theorem cmpVersions_numeric_behavior :
    (∀ a ∈ numericFixture,
      cmpVersions a a = some (-1) ∨ cmpVersions a a = none)
    ∧ (∀ a ∈ numericFixture, ∀ b ∈ numericFixture,
      intComps b ≠ intComps a → (intComps b).isPrefixOf (intComps a) →
      cmpVersions a b = some (-1) ∧ cmpVersions b a = none)
    ∧ (∀ a ∈ numericFixture, ∀ b ∈ numericFixture,
      cmpSlotBehavior a b = true) := by
  decide

/-- Witness for `cmpVersions_numeric_behavior` at the concrete prefix pair
`("1.1.1", "1.1")`. -/
theorem cmpVersions_numeric_behavior_witness :
    cmpVersions "1.1.1" "1.1" = some (-1) ∧ cmpVersions "1.1" "1.1.1" = none :=
  cmpVersions_numeric_behavior.2.1 "1.1.1" (by decide) "1.1" (by decide)
    (by decide) (by decide)

/-! # Claim C4 -/

/-- C4: for any spec-lag catalog and any per-version lag map of a project
(under any inclusion policy), the scatter output has exactly the lag map's
versions as labels and no others; every entry of the lag map appears with
its lag value passed through verbatim (so negative values are preserved,
never clamped); and every output point's `y` is the verbatim value stored
for its label. -/
theorem scatterData_keys_values (specLag pl : List (String × Int))
    (hnd : (pl.map Prod.fst).Nodup) :
    ((scatterData specLag pl).map (fun t => t.1) = pl.map Prod.fst)
    ∧ (∀ v y, (v, y) ∈ pl →
        (v, specLag.lookup v, some y) ∈ scatterData specLag pl)
    ∧ (∀ t ∈ scatterData specLag pl, ∃ y, t.2.2 = some y ∧ (t.1, y) ∈ pl) := by
  refine ⟨?_, ?_, ?_⟩
  · simp [scatterData, List.map_map, Function.comp]
  · intro v y hmem
    have hl : pl.lookup v = some y := lookup_eq_some_of_mem hnd hmem
    have hv : v ∈ pl.map Prod.fst := List.mem_map.mpr ⟨(v, y), hmem, rfl⟩
    have : (v, specLag.lookup v, pl.lookup v) ∈ scatterData specLag pl :=
      List.mem_map.mpr ⟨v, hv, rfl⟩
    rwa [hl] at this
  · intro t ht
    obtain ⟨v, hv, rfl⟩ := List.mem_map.mp ht
    obtain ⟨y, hy⟩ := lookup_isSome_of_key_mem (l := pl) hv
    exact ⟨y, by simpa using hy, by simpa using lookup_mem hy⟩

/-- Witness for `scatterData_keys_values`: the spec's scenario, a project
supporting version `"1.9"` 17 days before its release; the `-17` lag is
emitted verbatim. -/
theorem scatterData_keys_values_witness :
    ("1.9", some 30, some (-17)) ∈ scatterData [("1.9", 30)] [("1.9", -17)] :=
  (scatterData_keys_values [("1.9", 30)] [("1.9", -17)] (by decide)).2.1
    "1.9" (-17) (by decide)

/-! # Claim C7 -/

/-- C7: the flattened interval output has exactly one tuple per interval —
its length is the sum over the map of each version's interval count, so a
version with zero intervals contributes nothing and every interval of a
multi-interval version yields its own tuple — and every interval is
emitted with its end replaced by `orNow`, in particular an interval with
absent end is emitted with end equal to the supplied `now`. -/
theorem flattenVersionDates_count_now
    (pv : List (String × List (String × Option String))) (now : String) :
    ((flattenVersionDates pv now).length = (pv.map (fun p => p.2.length)).sum)
    ∧ (∀ v ivs, (v, ivs) ∈ pv → ∀ s e, (s, e) ∈ ivs →
        (v, s, orNow e now) ∈ flattenVersionDates pv now)
    ∧ (∀ v ivs s, (v, ivs) ∈ pv → (s, none) ∈ ivs →
        (v, s, now) ∈ flattenVersionDates pv now) := by
  refine ⟨?_, ?_, ?_⟩
  · simp [flattenVersionDates, List.length_flatten, List.map_map, Function.comp_def]
  · intro v ivs hmem s e hiv
    refine List.mem_flatten.mpr ⟨_, List.mem_map.mpr ⟨(v, ivs), hmem, rfl⟩, ?_⟩
    exact List.mem_map.mpr ⟨(s, e), hiv, rfl⟩
  · intro v ivs s hmem hiv
    refine List.mem_flatten.mpr ⟨_, List.mem_map.mpr ⟨(v, ivs), hmem, rfl⟩, ?_⟩
    exact List.mem_map.mpr ⟨(s, none), hiv, rfl⟩

/-- Witness for `flattenVersionDates_count_now`: a map with a two-interval
version, a zero-interval version and an open interval; the open interval
is emitted ending at `now`. -/
theorem flattenVersionDates_count_now_witness :
    ((flattenVersionDates
        [("v1.1", [("2020-01-01", some "2020-06-01"), ("2021-01-01", none)]),
         ("v1.2", [])] "2024-05-05").length = 2)
    ∧ ("v1.1", "2021-01-01", "2024-05-05") ∈
        flattenVersionDates
          [("v1.1", [("2020-01-01", some "2020-06-01"), ("2021-01-01", none)]),
           ("v1.2", [])] "2024-05-05" :=
  ⟨(flattenVersionDates_count_now _ "2024-05-05").1,
   (flattenVersionDates_count_now _ "2024-05-05").2.2 "v1.1"
     [("2020-01-01", some "2020-06-01"), ("2021-01-01", none)] "2021-01-01"
     (by decide) (by decide)⟩

/-! ## Activity-sweep helper lemmas -/

theorem sorted_sortedEvents (m : ProjMap) :
    List.Pairwise (fun a b : Int × Int => a.1 ≤ b.1) (sortedEvents m) := by
  letI : IsTotal (Int × Int) (fun a b => a.1 ≤ b.1) :=
    ⟨fun a b => Int.le_total a.1 b.1⟩
  letI : IsTrans (Int × Int) (fun a b => a.1 ≤ b.1) :=
    ⟨fun _ _ _ h1 h2 => le_trans h1 h2⟩
  exact List.sorted_insertionSort _ _

theorem mem_sortedEvents (m : ProjMap) (e : Int × Int) :
    e ∈ sortedEvents m ↔ e ∈ activityEvents m :=
  (List.perm_insertionSort _ _).mem_iff

theorem pairwise_rel_getLast {α : Type} {r : α → α → Prop} {l : List α} {x : α}
    (hs : List.Pairwise r l) (hx : l.getLast? = some x) :
    ∀ e ∈ l, e = x ∨ r e x := by
  obtain ⟨l', rfl⟩ := List.getLast?_eq_some_iff.mp hx
  intro e he
  rcases List.mem_append.mp he with he | he
  · exact Or.inr (((List.pairwise_append.mp hs).2.2 e he x) (by simp))
  · simp only [List.mem_singleton] at he
    exact Or.inl he

theorem activityEvents_delta (m : ProjMap) :
    ∀ e ∈ activityEvents m, e.2 = 1 ∨ e.2 = -1 := by
  intro e he
  obtain ⟨l, hl, hel⟩ := List.mem_flatten.mp he
  obtain ⟨p, _, rfl⟩ := List.mem_map.mp hl
  rcases List.mem_cons.mp hel with h | h
  · subst h; exact Or.inl rfl
  · simp only [List.mem_singleton] at h
    subst h; exact Or.inr rfl

theorem activityEvents_le_last (m : ProjMap) {dmax δ : Int}
    (h : lastEvent m = some (dmax, δ)) :
    ∀ e ∈ activityEvents m, e.1 ≤ dmax := by
  intro e he
  have he' : e ∈ sortedEvents m := (mem_sortedEvents m e).mpr he
  rcases pairwise_rel_getLast (sorted_sortedEvents m) h e he' with h' | h'
  · subst h'; rfl
  · exact h'

/-! # Claim C8 -/

/-- C8: with `(dmax, δ)` the final sorted event, the cutoff is
`dmax - 60` where `dmax` is the maximum date appearing in any event; a
start event is never suppressed by the filter; an end event survives the
filter exactly when its date is `< dmax - 60`, i.e. it is suppressed iff
its date is `≥ cutoff` (the final event itself, if an end, carries the
already-shifted date `dmax - 60`, fails `a[0] < last_run` against its own
aliased object, and is likewise suppressed, consistently with its original
date `dmax ≥ cutoff`). -/
theorem activity_cutoff_suppression (m : ProjMap) (dmax δ : Int)
    (h : lastEvent m = some (dmax, δ)) :
    cutoffOf m = dmax - 60
    ∧ (∀ e ∈ activityEvents m, e.1 ≤ dmax)
    ∧ (∀ e ∈ mutatedEvents m, 0 < e.2 → e ∈ keptEvents m)
    ∧ (∀ e ∈ mutatedEvents m, e.2 ≤ 0 →
        (e ∈ keptEvents m ↔ e.1 < dmax - 60)) := by
  have hc : cutoffOf m = dmax - 60 := by
    simp [cutoffOf, h]
  refine ⟨hc, activityEvents_le_last m h, ?_, ?_⟩
  · intro e he hpos
    refine List.mem_filter.mpr ⟨he, ?_⟩
    simp [hpos]
  · intro e he hend
    rw [← hc]
    constructor
    · intro hk
      have := (List.mem_filter.mp hk).2
      simp only [Bool.or_eq_true, decide_eq_true_eq] at this
      rcases this with h' | h'
      · exact h'
      · omega
    · intro hlt
      exact List.mem_filter.mpr ⟨he, by simp [hlt]⟩

/-- Witness for `activity_cutoff_suppression` on a one-project map with
events `(0, +1)` and `(100, -1)`. -/
theorem activity_cutoff_suppression_witness :
    cutoffOf [("proj", ⟨0, 100, none, 0⟩)] = 100 - 60 :=
  (activity_cutoff_suppression [("proj", ⟨0, 100, none, 0⟩)] 100 (-1)
    (by decide)).1

theorem totalGo_mem {l : List (Int × Int)} {c : Int} :
    ∀ p ∈ totalGo l c, p.1 ∈ l.map Prod.fst ∧ c < p.2 := by
  induction l generalizing c with
  | nil => intro p hp; cases hp
  | cons e rest ih =>
    intro p hp
    by_cases hpos : 0 < e.2
    · simp only [totalGo, if_pos hpos] at hp
      rcases List.mem_cons.mp hp with hp | hp
      · subst hp
        exact ⟨by simp, by omega⟩
      · obtain ⟨hd, hv⟩ := ih p hp
        exact ⟨by simp [List.mem_cons]; right; simpa using hd, by omega⟩
    · simp only [totalGo, if_neg hpos] at hp
      obtain ⟨hd, hv⟩ := ih p hp
      exact ⟨by simp [List.mem_cons]; right; simpa using hd, hv⟩

theorem totalGo_pairwise {l : List (Int × Int)}
    (hp : List.Pairwise (fun a b : Int × Int => a.1 ≤ b.1) l) (c : Int) :
    List.Pairwise (fun p q : Int × Int => p.1 ≤ q.1 ∧ p.2 < q.2) (totalGo l c) := by
  induction l generalizing c with
  | nil => exact List.Pairwise.nil
  | cons e rest ih =>
    obtain ⟨hhead, htail⟩ := List.pairwise_cons.mp hp
    by_cases hpos : 0 < e.2
    · simp only [totalGo, if_pos hpos]
      refine List.pairwise_cons.mpr ⟨?_, ih htail (c + 1)⟩
      intro q hq
      obtain ⟨hd, hv⟩ := totalGo_mem q hq
      obtain ⟨y, hy, hyd⟩ := List.mem_map.mp hd
      exact ⟨hyd ▸ hhead y hy, by omega⟩
    · simp only [totalGo, if_neg hpos]
      exact ih htail c

theorem totalGo_getElem_val :
    ∀ (l : List (Int × Int)) (c : Int) (j : Nat) (p : Int × Int),
      (totalGo l c)[j]? = some p → p.2 = c + j + 1 := by
  intro l
  induction l with
  | nil => intro c j p hp; simp [totalGo] at hp
  | cons e rest ih =>
    intro c j p hp
    by_cases hpos : 0 < e.2
    · rw [show totalGo (e :: rest) c = (e.1, c + 1) :: totalGo rest (c + 1) from
        by simp [totalGo, hpos]] at hp
      match j with
      | 0 =>
        simp only [List.getElem?_cons_zero, Option.some.injEq] at hp
        subst hp
        simp
      | j + 1 =>
        simp only [List.getElem?_cons_succ] at hp
        have := ih (c + 1) j p hp
        rw [this]
        push_cast
        ring
    · rw [show totalGo (e :: rest) c = totalGo rest c from
        by simp [totalGo, hpos]] at hp
      exact ih c j p hp

theorem activeGo_map_fst :
    ∀ (l : List (Int × Int)) (c : Int),
      (activeGo l c).map Prod.fst = l.map Prod.fst := by
  intro l
  induction l with
  | nil => intro c; rfl
  | cons e rest ih =>
    intro c
    simp only [activeGo, List.map_cons, ih]

theorem activeGo_le_countP :
    ∀ (l : List (Int × Int)) (c : Int), (∀ e ∈ l, e.2 ≤ 1) →
      ∀ (i : Nat) (p : Int × Int), (activeGo l c)[i]? = some p →
      p.2 ≤ c + ((l.take (i + 1)).countP (fun e => decide (0 < e.2)) : Int) := by
  intro l
  induction l with
  | nil => intro c _ i p hp; simp [activeGo] at hp
  | cons e rest ih =>
    intro c hd i p hp
    have hde : e.2 ≤ 1 := hd e (List.mem_cons_self e rest)
    rw [show activeGo (e :: rest) c = (e.1, c + e.2) :: activeGo rest (c + e.2)
      from rfl] at hp
    match i with
    | 0 =>
      simp only [List.getElem?_cons_zero, Option.some.injEq] at hp
      subst hp
      simp only [List.take_succ_cons, List.take_zero, List.countP_cons,
        List.countP_nil]
      by_cases hpos : 0 < e.2 <;> simp [hpos] <;> omega
    | i + 1 =>
      have hrest : ∀ x ∈ rest, x.2 ≤ 1 := fun x hx => hd x (List.mem_cons_of_mem e hx)
      simp only [List.getElem?_cons_succ] at hp
      have hih := ih (c + e.2) hrest i p hp
      simp only [List.take_succ_cons, List.countP_cons]
      by_cases hpos : 0 < e.2
      · rw [if_pos (by simp [hpos])]
        push_cast
        omega
      · rw [if_neg (by simp [hpos])]
        push_cast
        omega

theorem keptEvents_of_end (m : ProjMap) {dmax δ : Int}
    (h : lastEvent m = some (dmax, δ)) (hδ : δ ≤ 0) :
    keptEvents m = (sortedEvents m).dropLast.filter
      (fun e => decide (e.1 < cutoffOf m) || decide (0 < e.2)) := by
  unfold keptEvents mutatedEvents
  rw [h]
  rw [List.filter_append]
  have hpred : (decide ((cutoffOf m, δ).1 < cutoffOf m)
      || decide (0 < (cutoffOf m, δ).2)) = false := by
    simp only [Bool.or_eq_false_iff, decide_eq_false_iff_not]
    exact ⟨lt_irrefl _, by omega⟩
  have : (List.filter (fun e => decide (e.1 < cutoffOf m) || decide (0 < e.2))
      [(cutoffOf m, δ)]) = [] := by
    rw [List.filter_cons, if_neg (by simp only [hpred]; exact Bool.false_ne_true)]
    rfl
  rw [this, List.append_nil]

theorem keptEvents_pairwise_of_end (m : ProjMap) {dmax δ : Int}
    (h : lastEvent m = some (dmax, δ)) (hδ : δ ≤ 0) :
    List.Pairwise (fun a b : Int × Int => a.1 ≤ b.1) (keptEvents m) := by
  rw [keptEvents_of_end m h hδ]
  exact ((sorted_sortedEvents m).sublist (List.dropLast_sublist _)).filter _

theorem keptEvents_delta_le_one (m : ProjMap) {dmax δ : Int}
    (h : lastEvent m = some (dmax, δ)) (hδ : δ ≤ 0) :
    ∀ e ∈ keptEvents m, e.2 ≤ 1 := by
  rw [keptEvents_of_end m h hδ]
  intro e he
  have h1 : e ∈ (sortedEvents m).dropLast := (List.mem_filter.mp he).1
  have h2 : e ∈ sortedEvents m := (List.dropLast_sublist _).mem h1
  rcases activityEvents_delta m e ((mem_sortedEvents m e).mp h2) with h' | h' <;>
    omega

/-! # Claim C9 -/

/-- C9, counterexample: on a project set whose chronologically last event
is a *start* (project `"B"` has `initial_commit_date` after every
`last_commit_date`), the in-place cutoff mutation shifts that final start
event 60 days back, so the emitted `total` series is
`[(0, 1), (250, 2), (240, 3)]`: its value rises to `3` at `t = 240`
although it is `2` at the later `t = 250`, hence `total(t)` is not
non-decreasing in `t`, and the series' dates are not ascending. -/
theorem activity_total_not_monotone_counterexample :
    totalSeries
      [("A", ⟨0, 100, none, 0⟩), ("C", ⟨250, 260, none, 0⟩),
       ("B", ⟨300, 50, none, 0⟩)] = [(0, 1), (250, 2), (240, 3)]
    ∧ ¬ List.Pairwise (fun p q : Int × Int => p.1 ≤ q.1)
      (totalSeries
        [("A", ⟨0, 100, none, 0⟩), ("C", ⟨250, 260, none, 0⟩),
         ("B", ⟨300, 50, none, 0⟩)]) := by
  decide

/-- C9 (amended): whenever the chronologically last event is an *end*
event (so the cutoff mutation only rewrites an event that the filter then
discards — in particular on every dataset where each project starts before
some project's last commit), the `total` series has non-decreasing dates
and strictly increasing values (it is incremented exactly on start events:
the `j`-th point's value is `j + 1`), the `active` series' dates are
non-decreasing, and at every point of the `active` series the running
active count is at most the number of start events seen so far — hence
`active(t) ≤ total(t)` at every point of both series. -/
theorem activity_series_monotone (m : ProjMap) (dmax δ : Int)
    (h : lastEvent m = some (dmax, δ)) (hδ : δ ≤ 0) :
    List.Pairwise (fun p q : Int × Int => p.1 ≤ q.1 ∧ p.2 < q.2) (totalSeries m)
    ∧ List.Pairwise (fun p q : Int × Int => p.1 ≤ q.1) (activeSeries m)
    ∧ (∀ (j : Nat) (p : Int × Int), (totalSeries m)[j]? = some p →
        p.2 = j + 1)
    ∧ (∀ (i : Nat) (p : Int × Int), (activeSeries m)[i]? = some p →
        p.2 ≤ (((keptEvents m).take (i + 1)).countP
          (fun e => decide (0 < e.2)) : Int)) := by
  have hkp := keptEvents_pairwise_of_end m h hδ
  refine ⟨totalGo_pairwise hkp 0, ?_, ?_, ?_⟩
  · have hmap : ((activeGo (keptEvents m) 0).map Prod.fst) =
        (keptEvents m).map Prod.fst := activeGo_map_fst _ _
    have hkp' : List.Pairwise (fun a b : Int => a ≤ b)
        ((keptEvents m).map Prod.fst) := List.pairwise_map.mpr hkp
    have := List.pairwise_map.mp (hmap ▸ hkp' :
      List.Pairwise (fun a b : Int => a ≤ b)
        ((activeGo (keptEvents m) 0).map Prod.fst))
    exact this
  · intro j p hp
    have := totalGo_getElem_val (keptEvents m) 0 j p hp
    omega
  · intro i p hp
    have := activeGo_le_countP (keptEvents m) 0
      (keptEvents_delta_le_one m h hδ) i p hp
    omega

/-- Witness for `activity_series_monotone` on a one-project map. -/
theorem activity_series_monotone_witness :
    List.Pairwise (fun p q : Int × Int => p.1 ≤ q.1 ∧ p.2 < q.2)
      (totalSeries [("proj", ⟨0, 100, none, 0⟩)]) :=
  (activity_series_monotone [("proj", ⟨0, 100, none, 0⟩)] 100 (-1)
    (by decide) (by decide)).1

/-! # Claim C10 -/

/-- C10, counterexample: the mutated final start event is emitted at date
`240 = 300 - 60`, but the input also contains the event date `0`, and
`240` is not earlier than `0` — so the emitted point's date is *not*
"60 days earlier than any date in the input". -/
theorem activity_mutation_counterexample :
    lastEvent
      [("A", ⟨0, 100, none, 0⟩), ("C", ⟨250, 260, none, 0⟩),
       ("B", ⟨300, 50, none, 0⟩)] = some (300, 1)
    ∧ (240, 3) ∈ totalSeries
      [("A", ⟨0, 100, none, 0⟩), ("C", ⟨250, 260, none, 0⟩),
       ("B", ⟨300, 50, none, 0⟩)]
    ∧ (0, (1 : Int)) ∈ activityEvents
      [("A", ⟨0, 100, none, 0⟩), ("C", ⟨250, 260, none, 0⟩),
       ("B", ⟨300, 50, none, 0⟩)]
    ∧ ¬ ((240 : Int) < 0) := by
  decide

theorem totalGo_mem_fst {l : List (Int × Int)} {c : Int} {e : Int × Int}
    (he : e ∈ l) (hpos : 0 < e.2) : e.1 ∈ (totalGo l c).map Prod.fst := by
  induction l generalizing c with
  | nil => cases he
  | cons x rest ih =>
    rcases List.mem_cons.mp he with he | he
    · subst he
      simp [totalGo, hpos]
    · by_cases hx : 0 < x.2
      · simp only [totalGo, if_pos hx, List.map_cons, List.mem_cons]
        exact Or.inr (ih he)
      · simp only [totalGo, if_neg hx]
        exact ih he

/-- C10 (amended): computing the cutoff mutates, in place, the `Date`
object of the chronologically last event (the event list the sweep
processes ends in `(dmax - 60, delta)` instead of `(dmax, delta)`);
consequently, whenever that last event is a start event it survives the
filter, and both emitted series contain a point at date `dmax - 60` —
60 days earlier than the chronologically last (maximum) input date, a date
the mutation introduced rather than one read from the input snapshot. -/
theorem activity_mutation_shifts_last_start (m : ProjMap) (dmax : Int)
    (h : lastEvent m = some (dmax, 1)) :
    (mutatedEvents m).getLast? = some (dmax - 60, 1)
    ∧ (dmax - 60, (1 : Int)) ∈ keptEvents m
    ∧ (dmax - 60) ∈ (totalSeries m).map Prod.fst
    ∧ (dmax - 60) ∈ (activeSeries m).map Prod.fst := by
  have hc : cutoffOf m = dmax - 60 := by simp [cutoffOf, h]
  have hmut : mutatedEvents m = (sortedEvents m).dropLast ++ [(dmax - 60, 1)] := by
    unfold mutatedEvents
    rw [h, hc]
  have hlast : (mutatedEvents m).getLast? = some (dmax - 60, 1) := by
    rw [hmut]
    exact List.getLast?_concat _
  have hkept : (dmax - 60, (1 : Int)) ∈ keptEvents m := by
    refine List.mem_filter.mpr ⟨?_, by simp⟩
    rw [hmut]
    simp
  refine ⟨hlast, hkept, ?_, ?_⟩
  · exact totalGo_mem_fst hkept (by simp)
  · have hfst : (activeSeries m).map Prod.fst = (keptEvents m).map Prod.fst :=
      activeGo_map_fst _ _
    rw [hfst]
    exact List.mem_map.mpr ⟨(dmax - 60, 1), hkept, rfl⟩

/-- Witness for `activity_mutation_shifts_last_start` at the concrete
input of the counterexample (last event `(300, +1)`). -/
theorem activity_mutation_shifts_last_start_witness :
    (240 : Int) ∈ (totalSeries
      [("A", ⟨0, 100, none, 0⟩), ("C", ⟨250, 260, none, 0⟩),
       ("B", ⟨300, 50, none, 0⟩)]).map Prod.fst :=
  (activity_mutation_shifts_last_start
    [("A", ⟨0, 100, none, 0⟩), ("C", ⟨250, 260, none, 0⟩),
     ("B", ⟨300, 50, none, 0⟩)] 300 (by decide)).2.2.1

/-! # Claim C6 -/

/-- C6: on the two-project cycle `a forked_from b`, `b forked_from a`, the
root walk of the family-tree comparator never finishes — for every fuel
bound the modelled walk is still running (`none`), so the JavaScript
`while (a_parent.forked_from)` loop runs forever; no `ConfigurationError`
(or any other signal) is ever produced. -/
theorem forkWalk_cycle_diverges :
    ∀ fuel : Nat,
      forkWalk [("a", ⟨0, 1, some "b", 0⟩), ("b", ⟨0, 1, some "a", 0⟩)]
        "a" ⟨0, 1, some "b", 0⟩ fuel = none
      ∧ forkWalk [("a", ⟨0, 1, some "b", 0⟩), ("b", ⟨0, 1, some "a", 0⟩)]
        "b" ⟨0, 1, some "a", 0⟩ fuel = none := by
  intro fuel
  induction fuel with
  | zero => exact ⟨rfl, rfl⟩
  | succ n ih => exact ⟨ih.2, ih.1⟩

/-! # Claim C5 -/

/-- C5, counterexample: with a *single* project whose `forked_from` names
the nonexistent `"ghost"`, the sort never invokes the comparator (one
element), no error of any kind is signalled, and the fork connector is
silently emitted with the sentinel row index `-1` coming from
`findIndex` missing. -/
theorem homeserverHistory_dangling_sentinel :
    homeserverHistory [("child", ⟨10, 20, some "ghost", 5⟩)] =
      .ok [("child", [(5, -1), (10, 0), (20, 0)])] := rfl

theorem insertCmp_ok_length {α ε : Type} (cmp : α → α → Except ε Int)
    (x : α) :
    ∀ (t res : List α), insertCmp cmp x t = .ok res →
      res.length = t.length + 1 := by
  intro t
  induction t with
  | nil =>
    intro res h
    simp only [insertCmp, Except.ok.injEq] at h
    subst h
    rfl
  | cons y ys ih =>
    intro res h
    rw [show insertCmp cmp x (y :: ys) = (do
      let c ← cmp x y
      if c ≤ 0 then pure (x :: y :: ys)
      else (y :: ·) <$> insertCmp cmp x ys) from rfl] at h
    cases hc : cmp x y with
    | error e =>
      rw [hc] at h
      exact Except.noConfusion
        (show (Except.error e : Except ε (List α)) = .ok res from h)
    | ok c =>
      rw [hc] at h
      by_cases hc0 : c ≤ 0
      · have h' : (Except.ok (x :: y :: ys) : Except ε (List α)) = .ok res := by
          rw [← h]
          show _ = (if c ≤ 0 then (Except.ok (x :: y :: ys) : Except ε (List α))
            else (y :: ·) <$> insertCmp cmp x ys)
          rw [if_pos hc0]
        rw [← Except.ok.injEq _ _ |>.mp h']
        rfl
      · have h' : ((y :: ·) <$> insertCmp cmp x ys : Except ε (List α)) =
            .ok res := by
          rw [← h]
          show _ = (if c ≤ 0 then (Except.ok (x :: y :: ys) : Except ε (List α))
            else (y :: ·) <$> insertCmp cmp x ys)
          rw [if_neg hc0]
        cases hi : insertCmp cmp x ys with
        | error e =>
          rw [hi] at h'
          exact Except.noConfusion
            (show (Except.error e : Except ε (List α)) = .ok res from h')
        | ok t' =>
          rw [hi] at h'
          have hres : y :: t' = res :=
            (Except.ok.injEq _ _).mp h'
          rw [← hres]
          have := ih t' hi
          simp only [List.length_cons]
          omega

theorem sortCmp_ok_length {α ε : Type} (cmp : α → α → Except ε Int) :
    ∀ (l res : List α), sortCmp cmp l = .ok res → res.length = l.length := by
  intro l
  induction l with
  | nil =>
    intro res h
    simp only [sortCmp, Except.ok.injEq] at h
    subst h
    rfl
  | cons x xs ih =>
    intro res h
    rw [show sortCmp cmp (x :: xs) = (do
      let t ← sortCmp cmp xs
      insertCmp cmp x t) from rfl] at h
    cases ht : sortCmp cmp xs with
    | error e =>
      rw [ht] at h
      exact Except.noConfusion
        (show (Except.error e : Except ε (List α)) = .ok res from h)
    | ok t =>
      rw [ht] at h
      have h' : insertCmp cmp x t = .ok res := h
      have h1 := insertCmp_ok_length cmp x t res h'
      have h2 := ih t ht
      simp only [List.length_cons]
      omega

/-- With at least two elements every element of the list takes part in at
least one comparison of the insertion sort, so a comparator that throws on
every pair involving `d` makes the whole sort throw. -/
theorem sortCmp_error_of_bad {α : Type} (cmp : α → α → Except Unit Int)
    (d : α) :
    ∀ (l : List α), d ∈ l → 2 ≤ l.length →
      (∀ b, cmp d b = .error ()) → (∀ a, cmp a d = .error ()) →
      sortCmp cmp l = .error () := by
  intro l
  induction l with
  | nil => intro h; cases h
  | cons x xs ih =>
    intro hd hlen hbadL hbadR
    show (do
      let t ← sortCmp cmp xs
      insertCmp cmp x t) = Except.error ()
    rcases List.mem_cons.mp hd with hdx | hdxs
    · subst hdx
      cases ht : sortCmp cmp xs with
      | error e =>
        cases e
        rfl
      | ok t =>
        have hlt : t.length = xs.length := sortCmp_ok_length cmp xs t ht
        cases t with
        | nil =>
          exfalso
          simp only [List.length_cons] at hlen
          simp only [List.length_nil] at hlt
          omega
        | cons y ys =>
          show (do
            let c ← cmp d y
            if c ≤ 0 then pure (d :: y :: ys)
            else (y :: ·) <$> insertCmp cmp d ys) = Except.error ()
          rw [hbadL y]
          rfl
    · cases xs with
      | nil => cases hdxs
      | cons y ys =>
        cases ys with
        | nil =>
          have hdy : d = y := by simpa using hdxs
          subst hdy
          rw [show sortCmp cmp [d] = .ok [d] from rfl]
          show (do
            let c ← cmp x d
            if c ≤ 0 then pure (x :: d :: [])
            else (d :: ·) <$> insertCmp cmp x []) = Except.error ()
          rw [hbadR x]
          rfl
        | cons z zs =>
          have hx := ih hdxs (by simp) hbadL hbadR
          rw [hx]
          rfl

/-- C5 (amended): with at least two projects, any dangling `forked_from`
makes the family-tree sort invoke the comparator on the offending project,
whose parent walk reads `forked_from` off the `undefined` lookup and
throws a `TypeError` — the whole rendering fails fast, though with a
`TypeError` that does not name the offending project rather than a
`ReferenceError` that does; with exactly one project the sort never calls
the comparator, no error is signalled, and the fork connector is silently
emitted with the sentinel row index `-1` from the missed `findIndex`. -/
theorem homeserverHistory_dangling_throws :
    (∀ (m : ProjMap) (d : String × ProjectInfo) (f : String),
      d ∈ m → 2 ≤ m.length → d.2.forked_from = some f →
      lookupJS m f = none →
      homeserverHistory m = .error ())
    ∧ (∀ (n f : String) (i : ProjectInfo),
      i.forked_from = some f → (n == f) = false →
      homeserverHistory [(n, i)] =
        .ok [(n, [(i.forked_date, -1),
                  (i.initial_commit_date, 0), (i.last_commit_date, 0)])]) := by
  constructor
  · intro m d f hd hlen hf hlf
    have hw : forkWalk m d.1 d.2 m.length = some (.error ()) := by
      obtain ⟨k, hk⟩ : ∃ k, m.length = k + 1 := ⟨m.length - 1, by omega⟩
      rw [hk, forkWalk, hf]
      dsimp only
      rw [hlf]
    have hbadL : ∀ b, famCmpE m d b = .error () := by
      intro b
      unfold famCmpE
      rw [hw]
      cases hfw : forkWalk m b.1 b.2 m.length with
      | none => rfl
      | some er =>
        cases er with
        | error e => rfl
        | ok r => rfl
    have hbadR : ∀ a, famCmpE m a d = .error () := by
      intro a
      unfold famCmpE
      rw [hw]
      cases hfw : forkWalk m a.1 a.2 m.length with
      | none => rfl
      | some er =>
        cases er with
        | error e => rfl
        | ok r => rfl
    have hs := sortCmp_error_of_bad (famCmpE m) d m hd hlen hbadL hbadR
    unfold homeserverHistory
    rw [hs]
    rfl
  · intro n f i hf hne
    have hsingle : sortCmp (famCmpE [(n, i)]) [(n, i)] = .ok [(n, i)] := rfl
    unfold homeserverHistory
    rw [hsingle]
    simp only [Except.map, List.enum, List.enumFrom, List.map]
    rw [hf]
    simp [List.findIdx?, hne]

/-- Witness for `homeserverHistory_dangling_throws`: its fail-fast clause
at a concrete three-project map whose middle project dangles, and its
sentinel clause at a concrete one-project map. -/
theorem homeserverHistory_dangling_throws_witness :
    homeserverHistory [("other", ⟨0, 30, none, 0⟩),
      ("child", ⟨10, 20, some "ghost", 5⟩),
      ("third", ⟨2, 40, none, 0⟩)] = .error ()
    ∧ homeserverHistory [("solo", ⟨10, 20, some "ghost", 5⟩)] =
      .ok [("solo", [(5, -1), (10, 0), (20, 0)])] :=
  ⟨homeserverHistory_dangling_throws.1
    [("other", ⟨0, 30, none, 0⟩), ("child", ⟨10, 20, some "ghost", 5⟩),
     ("third", ⟨2, 40, none, 0⟩)]
    ("child", ⟨10, 20, some "ghost", 5⟩) "ghost"
    (by decide) (by decide) rfl rfl,
   homeserverHistory_dangling_throws.2 "solo" "ghost"
    ⟨10, 20, some "ghost", 5⟩ rfl rfl⟩

/-! ## FamilyTreeBuilder helper lemmas -/

theorem forkWalk_ok_spec (m : ProjMap) :
    ∀ (fuel : Nat) (fam : String) (p : ProjectInfo) (r : String × ProjectInfo),
      forkWalk m fam p fuel = some (Except.ok r) →
      r.2.forked_from = none ∧ (lookupJS m r.1 = some r.2 ∨ r = (fam, p)) := by
  intro fuel
  induction fuel with
  | zero =>
    intro fam p r h
    cases hf : p.forked_from with
    | none =>
      rw [forkWalk, hf] at h
      simp only [Option.some.injEq, Except.ok.injEq] at h
      subst h
      exact ⟨hf, Or.inr rfl⟩
    | some f' =>
      rw [forkWalk, hf] at h
      simp at h
  | succ n ih =>
    intro fam p r h
    cases hf : p.forked_from with
    | none =>
      rw [forkWalk, hf] at h
      simp only [Option.some.injEq, Except.ok.injEq] at h
      subst h
      exact ⟨hf, Or.inr rfl⟩
    | some f' =>
      rw [forkWalk, hf] at h
      dsimp only at h
      cases hl : lookupJS m f' with
      | none => rw [hl] at h; simp at h
      | some q' =>
        rw [hl] at h
        obtain ⟨hnone, hd⟩ := ih f' q' r h
        refine ⟨hnone, Or.inl ?_⟩
        rcases hd with hd | hd
        · exact hd
        · rw [hd]
          exact hl

theorem famOk_iff (m : ProjMap) (e : String × ProjectInfo) :
    famOk m e = true ↔ ∃ r, famOf m e = some (Except.ok r) := by
  unfold famOk
  cases h : famOf m e with
  | none => simp only [h]; simp
  | some er =>
    cases er with
    | error u => simp only [h]; simp
    | ok r => simp only [h]; simp

theorem rootEntry_spec (m : ProjMap) (hN : (m.map Prod.fst).Nodup)
    (hF : Forest m) :
    ∀ e ∈ m,
      forkWalk m e.1 e.2 m.length =
        some (Except.ok (famName m e, rootInfoOf m e))
      ∧ lookupJS m (famName m e) = some (rootInfoOf m e)
      ∧ (rootInfoOf m e).forked_from = none
      ∧ (famName m e, rootInfoOf m e) ∈ m := by
  intro e he
  obtain ⟨r, hr⟩ := (famOk_iff m e).mp (hF e he)
  have hfam : famName m e = r.1 := by
    unfold famName
    rw [hr]
  have hinfo : rootInfoOf m e = r.2 := by
    unfold rootInfoOf
    rw [hr]
  obtain ⟨hnone, hd⟩ := forkWalk_ok_spec m m.length e.1 e.2 r hr
  have hlook : lookupJS m r.1 = some r.2 := by
    rcases hd with hd | hd
    · exact hd
    · subst hd
      exact lookup_eq_some_of_mem hN he
  refine ⟨?_, ?_, ?_, ?_⟩
  · rw [hfam, hinfo]
    simpa using hr
  · rw [hfam, hinfo]
    exact hlook
  · rw [hinfo]
    exact hnone
  · rw [hfam, hinfo]
    exact lookup_mem hlook

theorem famName_det (m : ProjMap) (hN : (m.map Prod.fst).Nodup)
    (hF : Forest m) :
    ∀ a ∈ m, ∀ b ∈ m, famName m a = famName m b →
      rootInfoOf m a = rootInfoOf m b := by
  intro a ha b hb hfab
  have hla := (rootEntry_spec m hN hF a ha).2.1
  have hlb := (rootEntry_spec m hN hF b hb).2.1
  rw [hfab] at hla
  rw [hla] at hlb
  exact Option.some_injective _ hlb

theorem rootDate_eq_of_famName_eq (m : ProjMap) (hN : (m.map Prod.fst).Nodup)
    (hF : Forest m) :
    ∀ a ∈ m, ∀ b ∈ m, famName m a = famName m b →
      rootDate m a = rootDate m b := by
  intro a ha b hb hfab
  unfold rootDate
  rw [famName_det m hN hF a ha b hb hfab]

theorem famCmpE_ok (m : ProjMap) (hN : (m.map Prod.fst).Nodup)
    (hF : Forest m) :
    ∀ a ∈ m, ∀ b ∈ m,
      famCmpE m a b = .ok
        (if famName m a ≠ famName m b
         then rootDate m a - rootDate m b
         else a.2.initial_commit_date - b.2.initial_commit_date) := by
  intro a ha b hb
  have hwa := (rootEntry_spec m hN hF a ha).1
  have hwb := (rootEntry_spec m hN hF b hb).1
  unfold famCmpE
  rw [hwa, hwb]
  dsimp only
  split_ifs <;> rfl

theorem cmpVal_eq (m : ProjMap) (hN : (m.map Prod.fst).Nodup)
    (hF : Forest m) :
    ∀ a ∈ m, ∀ b ∈ m,
      cmpVal m a b =
        (if famName m a ≠ famName m b
         then rootDate m a - rootDate m b
         else a.2.initial_commit_date - b.2.initial_commit_date) := by
  intro a ha b hb
  unfold cmpVal
  rw [famCmpE_ok m hN hF a ha b hb]

theorem famLe_iff_keyLe (m : ProjMap) (hN : (m.map Prod.fst).Nodup)
    (hF : Forest m)
    (hR : ∀ a ∈ m, ∀ b ∈ m, famName m a ≠ famName m b →
      rootDate m a ≠ rootDate m b) :
    ∀ a ∈ m, ∀ b ∈ m, (famLe m a b ↔ keyLe m a b) := by
  intro a ha b hb
  unfold famLe keyLe
  rw [cmpVal_eq m hN hF a ha b hb]
  by_cases hfam : famName m a = famName m b
  · rw [if_neg (by simpa using hfam)]
    have hrd : rootDate m a = rootDate m b :=
      rootDate_eq_of_famName_eq m hN hF a ha b hb hfam
    constructor
    · intro hle
      exact Or.inr ⟨hrd, by omega⟩
    · intro hk
      rcases hk with hk | hk
      · omega
      · omega
  · rw [if_pos (by simpa using hfam)]
    have hrd : rootDate m a ≠ rootDate m b := hR a ha b hb hfam
    constructor
    · intro hle
      exact Or.inl (by omega)
    · intro hk
      rcases hk with hk | hk
      · omega
      · omega

theorem insertCmp_eq_orderedInsert {α ε : Type} (cmp : α → α → Except ε Int)
    (r : α → α → Prop) [DecidableRel r] (x : α) :
    ∀ (t : List α),
      (∀ y ∈ t, ∃ c, cmp x y = .ok c ∧ (c ≤ 0 ↔ r x y)) →
      insertCmp cmp x t = .ok (List.orderedInsert r x t) := by
  intro t
  induction t with
  | nil => intro _; rfl
  | cons y ys ih =>
    intro h
    obtain ⟨c, hc, hiff⟩ := h y (List.mem_cons_self y ys)
    show (do
      let c ← cmp x y
      if c ≤ 0 then pure (x :: y :: ys)
      else (y :: ·) <$> insertCmp cmp x ys) = _
    rw [hc]
    by_cases hc0 : c ≤ 0
    · have hr : r x y := hiff.mp hc0
      simp only [List.orderedInsert, if_pos hr]
      show (if c ≤ 0 then (Except.ok (x :: y :: ys) : Except ε (List α))
        else (y :: ·) <$> insertCmp cmp x ys) = _
      rw [if_pos hc0]
    · have hr : ¬ r x y := fun hr => hc0 (hiff.mpr hr)
      simp only [List.orderedInsert, if_neg hr]
      show (if c ≤ 0 then (Except.ok (x :: y :: ys) : Except ε (List α))
        else (y :: ·) <$> insertCmp cmp x ys) = _
      rw [if_neg hc0, ih (fun z hz => h z (List.mem_cons_of_mem y hz))]
      rfl

theorem sortCmp_eq_insertionSort {α ε : Type} (cmp : α → α → Except ε Int)
    (r : α → α → Prop) [DecidableRel r] :
    ∀ (l : List α),
      (∀ a ∈ l, ∀ b ∈ l, ∃ c, cmp a b = .ok c ∧ (c ≤ 0 ↔ r a b)) →
      sortCmp cmp l = .ok (List.insertionSort r l) := by
  intro l
  induction l with
  | nil => intro _; rfl
  | cons x xs ih =>
    intro h
    show (do
      let t ← sortCmp cmp xs
      insertCmp cmp x t) = _
    rw [ih (fun a ha b hb => h a (List.mem_cons_of_mem x ha)
      b (List.mem_cons_of_mem x hb))]
    show insertCmp cmp x (List.insertionSort r xs) = _
    rw [insertCmp_eq_orderedInsert cmp r x (List.insertionSort r xs)
      (fun y hy => h x (List.mem_cons_self x xs) y
        (List.mem_cons_of_mem x ((List.perm_insertionSort r xs).mem_iff.mp hy)))]
    rfl

theorem orderedInsert_congr {α : Type} {r r' : α → α → Prop}
    [DecidableRel r] [DecidableRel r'] (x : α) :
    ∀ (t : List α), (∀ y ∈ t, (r x y ↔ r' x y)) →
      List.orderedInsert r x t = List.orderedInsert r' x t := by
  intro t
  induction t with
  | nil => intro _; rfl
  | cons y ys ih =>
    intro h
    have hy := h y (List.mem_cons_self y ys)
    by_cases hr : r x y
    · simp only [List.orderedInsert, if_pos hr, if_pos (hy.mp hr)]
    · simp only [List.orderedInsert, if_neg hr,
        if_neg (fun h' => hr (hy.mpr h'))]
      rw [ih (fun z hz => h z (List.mem_cons_of_mem y hz))]

theorem insertionSort_congr {α : Type} {r r' : α → α → Prop}
    [DecidableRel r] [DecidableRel r'] :
    ∀ (l : List α), (∀ a ∈ l, ∀ b ∈ l, (r a b ↔ r' a b)) →
      List.insertionSort r l = List.insertionSort r' l := by
  intro l
  induction l with
  | nil => intro _; rfl
  | cons x xs ih =>
    intro h
    show List.orderedInsert r x (List.insertionSort r xs) = _
    rw [ih (fun a ha b hb => h a (List.mem_cons_of_mem x ha)
      b (List.mem_cons_of_mem x hb))]
    rw [orderedInsert_congr x (List.insertionSort r' xs)
      (fun y hy => h x (List.mem_cons_self x xs) y
        (List.mem_cons_of_mem x ((List.perm_insertionSort r' xs).mem_iff.mp hy)))]
    rfl

theorem projectsByFamily_eq_insertionSort (m : ProjMap)
    (hN : (m.map Prod.fst).Nodup) (hF : Forest m) :
    projectsByFamily m = List.insertionSort (famLe m) m := by
  have hs : sortCmp (famCmpE m) m = .ok (List.insertionSort (famLe m) m) := by
    refine sortCmp_eq_insertionSort (famCmpE m) (famLe m) m ?_
    intro a ha b hb
    refine ⟨cmpVal m a b, ?_, Iff.rfl⟩
    unfold cmpVal
    rw [famCmpE_ok m hN hF a ha b hb]
  unfold projectsByFamily
  rw [hs]

theorem keyLe_total (m : ProjMap) :
    ∀ a b, keyLe m a b ∨ keyLe m b a := by
  intro a b
  unfold keyLe
  rcases lt_trichotomy (rootDate m a) (rootDate m b) with h | h | h
  · exact Or.inl (Or.inl h)
  · rcases le_total a.2.initial_commit_date b.2.initial_commit_date with h' | h'
    · exact Or.inl (Or.inr ⟨h, h'⟩)
    · exact Or.inr (Or.inr ⟨h.symm, h'⟩)
  · exact Or.inr (Or.inl h)

theorem keyLe_trans (m : ProjMap) :
    ∀ a b c, keyLe m a b → keyLe m b c → keyLe m a c := by
  intro a b c hab hbc
  unfold keyLe at *
  rcases hab with h | ⟨h1, h2⟩ <;> rcases hbc with h' | ⟨h1', h2'⟩
  · exact Or.inl (by omega)
  · exact Or.inl (by omega)
  · exact Or.inl (by omega)
  · exact Or.inr ⟨by omega, by omega⟩

theorem projectsByFamily_sorted (m : ProjMap)
    (hN : (m.map Prod.fst).Nodup) (hF : Forest m)
    (hR : ∀ a ∈ m, ∀ b ∈ m, famName m a ≠ famName m b →
      rootDate m a ≠ rootDate m b) :
    List.Pairwise (keyLe m) (projectsByFamily m) := by
  rw [projectsByFamily_eq_insertionSort m hN hF,
    insertionSort_congr m (famLe_iff_keyLe m hN hF hR)]
  letI : IsTotal (String × ProjectInfo) (keyLe m) := ⟨keyLe_total m⟩
  letI : IsTrans (String × ProjectInfo) (keyLe m) :=
    ⟨fun a b c => keyLe_trans m a b c⟩
  exact List.sorted_insertionSort (keyLe m) m

theorem projectsByFamily_perm (m : ProjMap)
    (hN : (m.map Prod.fst).Nodup) (hF : Forest m) :
    (projectsByFamily m).Perm m := by
  rw [projectsByFamily_eq_insertionSort m hN hF]
  exact List.perm_insertionSort (famLe m) m

theorem rootInfoOf_eq_of_famOf {m : ProjMap} {e r : String × ProjectInfo}
    (h : famOf m e = some (Except.ok r)) : rootInfoOf m e = r.2 := by
  unfold rootInfoOf
  rw [h]

/-! # Claim C3 -/

set_option maxHeartbeats 1000000 in
/-- C3, counterexample: two root projects with equal
`initial_commit_date` but names in reverse alphabetical insertion order.
The claimed ordering (by root date, own date, then *name*) would put
`"a"` first, but the comparator returns `0` on the tie and the stable sort
keeps insertion order, emitting `"b"` first: the output is not pairwise
ordered by the spec's claimed row order. -/
theorem projectsByFamily_no_name_tiebreak :
    (projectsByFamily
      [("b", ⟨0, 10, none, 0⟩), ("a", ⟨0, 10, none, 0⟩)]).map Prod.fst
      = ["b", "a"]
    ∧ ¬ List.Pairwise
        (specRowOrderLe [("b", ⟨0, 10, none, 0⟩), ("a", ⟨0, 10, none, 0⟩)])
        (projectsByFamily
          [("b", ⟨0, 10, none, 0⟩), ("a", ⟨0, 10, none, 0⟩)]) := by
  constructor
  · rfl
  · intro h
    have h1 : projectsByFamily
        [("b", ⟨0, 10, none, 0⟩), ("a", ⟨0, 10, none, 0⟩)] =
        [("b", ⟨0, 10, none, 0⟩), ("a", ⟨0, 10, none, 0⟩)] := rfl
    rw [h1] at h
    have h2 := List.rel_of_pairwise_cons h
      (List.mem_singleton.mpr rfl)
    rcases h2 with h2 | ⟨h2, h3 | ⟨h3, h4⟩⟩
    · exact absurd h2 (by decide)
    · exact absurd h3 (by decide)
    · exact absurd h4 (by decide)

/-- C3 (amended): on a forest with all references present whose distinct
families have distinct root dates and whose forked projects start strictly
after their root, the row ordering is ascending by
`(root initial_commit_date, own initial_commit_date)` — with ties kept in
input order by the stable sort, *not* broken by name — every lineage
occupies contiguous rows, and every forked project's row is strictly after
its ultimate root's row. -/
theorem projectsByFamily_row_order (m : ProjMap)
    (hN : (m.map Prod.fst).Nodup)
    (hF : Forest m)
    (hR : ∀ a ∈ m, ∀ b ∈ m, famName m a ≠ famName m b →
      rootDate m a ≠ rootDate m b)
    (hM : ∀ e ∈ m, e.2.forked_from ≠ none →
      rootDate m e < e.2.initial_commit_date) :
    List.Pairwise (keyLe m) (projectsByFamily m)
    ∧ (∀ (i j k : Fin (projectsByFamily m).length), i ≤ j → j ≤ k →
        famName m ((projectsByFamily m).get i) =
          famName m ((projectsByFamily m).get k) →
        famName m ((projectsByFamily m).get j) =
          famName m ((projectsByFamily m).get i))
    ∧ (∀ e ∈ m, e.2.forked_from ≠ none →
        ∀ (ir ie : Fin (projectsByFamily m).length),
          (projectsByFamily m).get ir = (famName m e, rootInfoOf m e) →
          (projectsByFamily m).get ie = e →
          ir < ie) := by
  have hsorted := projectsByFamily_sorted m hN hF hR
  have hperm := projectsByFamily_perm m hN hF
  have hgetrel := List.pairwise_iff_get.mp hsorted
  have hmem : ∀ x ∈ projectsByFamily m, x ∈ m :=
    fun x hx => hperm.mem_iff.mp hx
  refine ⟨hsorted, ?_, ?_⟩
  · intro i j k hij hjk hik
    by_contra hne
    have hij' : i < j := by
      rcases lt_or_eq_of_le hij with h | h
      · exact h
      · exact absurd (by rw [h]) hne
    have hjk' : j < k := by
      rcases lt_or_eq_of_le hjk with h | h
      · exact h
      · exact absurd (by rw [← h] at hik; rw [hik]) hne
    have hmi := hmem _ (List.get_mem (projectsByFamily m) i.1 i.2)
    have hmj := hmem _ (List.get_mem (projectsByFamily m) j.1 j.2)
    have hmk := hmem _ (List.get_mem (projectsByFamily m) k.1 k.2)
    have hrdik : rootDate m ((projectsByFamily m).get i) =
        rootDate m ((projectsByFamily m).get k) :=
      rootDate_eq_of_famName_eq m hN hF _ hmi _ hmk hik
    have hneij : famName m ((projectsByFamily m).get i) ≠
        famName m ((projectsByFamily m).get j) :=
      fun h => hne h.symm
    have hnejk : famName m ((projectsByFamily m).get j) ≠
        famName m ((projectsByFamily m).get k) := by
      intro h
      exact hne (h.trans hik.symm)
    have hd1 : rootDate m ((projectsByFamily m).get i) ≠
        rootDate m ((projectsByFamily m).get j) :=
      hR _ hmi _ hmj hneij
    have hd2 : rootDate m ((projectsByFamily m).get j) ≠
        rootDate m ((projectsByFamily m).get k) :=
      hR _ hmj _ hmk hnejk
    have hk1 := hgetrel i j hij'
    have hk2 := hgetrel j k hjk'
    unfold keyLe at hk1 hk2
    rcases hk1 with h1 | ⟨h1, _⟩
    · rcases hk2 with h2 | ⟨h2, _⟩
      · omega
      · omega
    · exact hd1 h1
  · intro e he hforked
    have hspec := rootEntry_spec m hN hF e he
    have hrne : (famName m e, rootInfoOf m e) ≠ e := by
      intro hre
      apply hforked
      have h2 := congrArg Prod.snd hre
      simp only at h2
      rw [← h2]
      exact hspec.2.2.1
    have hwalkpair : famOf m (famName m e, rootInfoOf m e) =
        some (Except.ok (famName m e, rootInfoOf m e)) := by
      unfold famOf
      rw [forkWalk]
      dsimp only
      rw [hspec.2.2.1]
    have hfr : rootInfoOf m (famName m e, rootInfoOf m e) = rootInfoOf m e :=
      rootInfoOf_eq_of_famOf hwalkpair
    have hrd : rootDate m (famName m e, rootInfoOf m e) = rootDate m e := by
      unfold rootDate
      rw [hfr]
    have hkey : ¬ keyLe m e (famName m e, rootInfoOf m e) := by
      unfold keyLe
      have hMe := hM e he hforked
      have hown : (famName m e, rootInfoOf m e).2.initial_commit_date =
          rootDate m e := rfl
      intro hk
      rcases hk with hk | ⟨hk1, hk2⟩
      · omega
      · omega
    intro ir ie hir hie
    rcases lt_trichotomy ir ie with h | h | h
    · exact h
    · exfalso
      apply hrne
      rw [← hir, ← hie, h]
    · exfalso
      have := hgetrel ie ir h
      rw [hir, hie] at this
      exact hkey this

set_option maxHeartbeats 1000000 in
/-- Witness for `projectsByFamily_row_order` at a concrete three-project
forest: the fork `"kid"` of `"root"` is placed strictly after `"root"`
(rows are `["root", "kid", "other"]`; `"root"` sits at row 0, `"kid"` at
row 1). -/
theorem projectsByFamily_row_order_witness :
    (⟨0, by decide⟩ : Fin (projectsByFamily
        [("root", ⟨0, 100, none, 0⟩), ("kid", ⟨50, 100, some "root", 40⟩),
         ("other", ⟨10, 99, none, 0⟩)]).length) <
      (⟨1, by decide⟩ : Fin (projectsByFamily
        [("root", ⟨0, 100, none, 0⟩), ("kid", ⟨50, 100, some "root", 40⟩),
         ("other", ⟨10, 99, none, 0⟩)]).length) :=
  (projectsByFamily_row_order
    [("root", ⟨0, 100, none, 0⟩), ("kid", ⟨50, 100, some "root", 40⟩),
     ("other", ⟨10, 99, none, 0⟩)]
    (by decide) (by decide) (by decide) (by decide)).2.2
    ("kid", ⟨50, 100, some "root", 40⟩) (by decide) (by decide)
    ⟨0, by decide⟩ ⟨1, by decide⟩ (by decide) (by decide)
